import Mathlib

/-!
Verification development for the meta-world repository.

Part 1 embeds `meta/utils/estimate.py` (running mean / running mean and
standard deviation estimators) over exact rational arithmetic: a torch
tensor of a fixed shape is modelled as a function from an index type `ι`
to `ℚ`, and every torch operation used by the source is elementwise.

Part 2 models the splitting multi-task network (`SplittingMLPNetwork`)
and its gradient-statistics split-trigger engine.  The implementation
file `meta/networks/splitting.py` is not part of this source tree (only
its unit tests are), so those definitions are modelled from the spec and
carry a `Modelled from the spec:` doc comment.
-/

namespace MetaWorld

/-! ### Part 1: running estimators, translated from `meta/utils/estimate.py` -/

/-- `EMA_THRESHOLD = 100` from `estimate.py`. -/
def EMA_THRESHOLD : ℕ := 100

/-- `EMA_ALPHA = 0.99` from `estimate.py`. -/
def EMA_ALPHA : ℚ := 99 / 100

/-- A torch tensor of shape indexed by `ι`, with exact rational entries. -/
def Tensor (ι : Type) : Type := ι → ℚ

/-- `single_update(m, v, n)` from `estimate.py`:
`(m * (n - 1) + v) / n` while `n <= EMA_THRESHOLD`, else
`m * EMA_ALPHA + v * (1. - EMA_ALPHA)`; torch arithmetic is elementwise. -/
def single_update {ι : Type} (m v : Tensor ι) (n : ℕ) : Tensor ι :=
  if n ≤ EMA_THRESHOLD then
    fun i => (m i * ((n : ℚ) - 1) + v i) / (n : ℚ)
  else
    fun i => m i * EMA_ALPHA + v i * (1 - EMA_ALPHA)

/-- State of class `RunningMean`: `num_steps` and `mean`. -/
structure RunningMean (ι : Type) where
  num_steps : ℕ
  mean : Tensor ι

/-- `RunningMean.__init__`: zero steps, zero mean. -/
def RunningMean.init (ι : Type) : RunningMean ι :=
  ⟨0, fun _ => 0⟩

/-- `RunningMean.update`: increment `num_steps`, then
`mean = single_update(mean, val, num_steps)`. -/
def RunningMean.update {ι : Type} (s : RunningMean ι) (val : Tensor ι) :
    RunningMean ι :=
  ⟨s.num_steps + 1, single_update s.mean val (s.num_steps + 1)⟩

/-- State of class `RunningMeanStdev`: `num_steps`, `mean`, `square_mean`
and `var`.  The source also stores `stdev = torch.sqrt(var)`, which is
recomputed from `var` on every update; it is modelled as the derived
function `RunningMeanStdev.stdev` below. -/
structure RunningMeanStdev (ι : Type) where
  num_steps : ℕ
  mean : Tensor ι
  square_mean : Tensor ι
  var : Tensor ι

/-- `RunningMeanStdev.__init__`: zero steps, zero mean/square_mean/var. -/
def RunningMeanStdev.init (ι : Type) : RunningMeanStdev ι :=
  ⟨0, fun _ => 0, fun _ => 0, fun _ => 0⟩

/-- `RunningMeanStdev.update`: increment `num_steps`, update `mean` and
`square_mean` with `single_update` (the latter fed `val ** 2`), then
`var = square_mean - mean ** 2`.  Note the source applies no clamping
to `var`. -/
def RunningMeanStdev.update {ι : Type} (s : RunningMeanStdev ι)
    (val : Tensor ι) : RunningMeanStdev ι :=
  let n := s.num_steps + 1
  let mean := single_update s.mean val n
  let square_mean := single_update s.square_mean (fun i => val i ^ 2) n
  ⟨n, mean, square_mean, fun i => square_mean i - mean i ^ 2⟩

/-- `stdev = torch.sqrt(self.var)` from `RunningMeanStdev.update`, with
no clamping of `var`.  `torch.sqrt` of a negative entry is NaN, which is
modelled as `none`. -/
noncomputable def RunningMeanStdev.stdev {ι : Type} (s : RunningMeanStdev ι)
    (i : ι) : Option ℝ :=
  if s.var i < 0 then none else some (Real.sqrt (s.var i))

/-- Feed a sequence of values to a `RunningMean`, one `update` per value. -/
def feedRM {ι : Type} (s : RunningMean ι) (vs : List (Tensor ι)) :
    RunningMean ι :=
  vs.foldl RunningMean.update s

/-- Feed a sequence of values to a `RunningMeanStdev`, one `update` per
value. -/
def feedRMS {ι : Type} (s : RunningMeanStdev ι) (vs : List (Tensor ι)) :
    RunningMeanStdev ι :=
  vs.foldl RunningMeanStdev.update s

/-! ### Part 2: the splitting network, modelled from the spec

`meta/networks/splitting.py` is not in this source tree (only
`tests/networks/test_splitting.py` is), so the network is modelled from
spec sections 3 and 4.2.  Parameter blocks are an abstract type `P`
(a copy's weight matrix and bias), observations an abstract type `O`,
and each region carries its layer transform (layer plus the region's
shared activation) as a function `P → O → O`. -/

/-- Modelled from the spec: a Region is an ordered collection of copies
(parameter blocks, dense copy indices `0..k-1` given by list position),
the task→copy assignment for this region (one row of the Task Assignment
Table), and the region's layer transform shared by all copies. -/
structure Region (P O : Type) where
  copies : List P
  assignment : ℕ → ℕ
  transform : P → O → O

instance {P O : Type} : Inhabited (Region P O) :=
  ⟨⟨[], fun _ => 0, fun _ o => o⟩⟩

/-- Modelled from the spec: the Splitting Network is an ordered sequence
of Regions plus a global task count. -/
structure SplitNet (P O : Type) where
  num_tasks : ℕ
  regions : List (Region P O)

/-- Modelled from the spec: at construction every region holds a single
copy (index 0) and every task is assigned to it. -/
def SplitNet.init {P O : Type} (T : ℕ) (layers : List (P × (P → O → O))) :
    SplitNet P O :=
  ⟨T, layers.map (fun l => ⟨[l.1], fun _ => 0, l.2⟩)⟩

/-- The region at index `r` (a junk empty region if `r` is out of range). -/
def SplitNet.regionAt {P O : Type} (net : SplitNet P O) (r : ℕ) :
    Region P O :=
  net.regions.getD r default

/-- Modelled from the spec: the set of task indices currently assigned to
copy `c` of a region, as a duplicate-free list. -/
def Region.assignedTasks {P O : Type} (reg : Region P O) (T c : ℕ) :
    List ℕ :=
  (List.range T).filter (fun t => decide (reg.assignment t = c))

/-- Modelled from the spec: the preconditions of
`split(region_index, copy_index, group1, group2)` — valid region and copy
indices, both groups non-empty, and the groups a clean partition
(disjoint, covering exactly) of the tasks currently assigned to the
copy. -/
def SplitNet.goodSplit {P O : Type} (net : SplitNet P O) (r c : ℕ)
    (g1 g2 : List ℕ) : Prop :=
  r < net.regions.length ∧
  c < (net.regionAt r).copies.length ∧
  g1 ≠ [] ∧ g2 ≠ [] ∧ (g1 ++ g2).Nodup ∧
  (∀ t ∈ g1 ++ g2, t ∈ (net.regionAt r).assignedTasks net.num_tasks c) ∧
  (∀ t ∈ (net.regionAt r).assignedTasks net.num_tasks c, t ∈ g1 ++ g2)

instance {P O : Type} (net : SplitNet P O) (r c : ℕ) (g1 g2 : List ℕ) :
    Decidable (net.goodSplit r c g1 g2) := by
  unfold SplitNet.goodSplit
  infer_instance

/-- Modelled from the spec: the effect of a valid split on the affected
region — append one new copy whose parameters are a (deep) copy of copy
`c`, and reassign every task in `group2` to the new copy (whose index is
the old copy count); every other task keeps its assignment. -/
def Region.splitCopy {P O : Type} [Inhabited P] (reg : Region P O)
    (c : ℕ) (g2 : List ℕ) : Region P O :=
  { copies := reg.copies ++ [reg.copies.getD c default]
    assignment := fun t => if t ∈ g2 then reg.copies.length else reg.assignment t
    transform := reg.transform }

/-- Modelled from the spec:
`split(region_index, copy_index, group1, group2)` — fail fast with an
invalid-argument error when the preconditions do not hold (mutating
nothing), otherwise apply the split to the named region. -/
def SplitNet.split {P O : Type} [Inhabited P] (net : SplitNet P O)
    (r c : ℕ) (g1 g2 : List ℕ) : Except String (SplitNet P O) :=
  if net.goodSplit r c g1 g2 then
    .ok { net with regions := net.regions.set r ((net.regionAt r).splitCopy c g2) }
  else
    .error "invalid split arguments"

/-- Run `split` as a state transformer: the state after the call is the
new network on success and the unchanged network on error. -/
def SplitNet.trySplit {P O : Type} [Inhabited P] (net : SplitNet P O)
    (r c : ℕ) (g1 g2 : List ℕ) : SplitNet P O :=
  match net.split r c g1 g2 with
  | .ok net2 => net2
  | .error _ => net

/-- Apply a sequence of `split` calls (each given as
`(region, copy, group1, group2)`) in order. -/
def SplitNet.applySplits {P O : Type} [Inhabited P] (net : SplitNet P O)
    (ops : List (ℕ × ℕ × List ℕ × List ℕ)) : SplitNet P O :=
  ops.foldl (fun n op => n.trySplit op.1 op.2.1 op.2.2.1 op.2.2.2) net

/-- Every task index is routed to an existing copy in every region: the
task→copy mapping is total into the dense copy range `0..k-1`. -/
def SplitNet.totalAssignment {P O : Type} (net : SplitNet P O) : Prop :=
  ∀ reg ∈ net.regions, ∀ t < net.num_tasks,
    reg.assignment t < reg.copies.length

/-- The partition invariant of the Task Assignment Table: in every
region the mapping is total into the dense copy range, and every
existing copy serves at least one task (so the copies' task sets
partition the full task-index set). -/
def SplitNet.wellFormed {P O : Type} (net : SplitNet P O) : Prop :=
  net.totalAssignment ∧
  ∀ reg ∈ net.regions, ∀ c < reg.copies.length,
    ∃ t < net.num_tasks, reg.assignment t = c

/-- Modelled from the spec: the row indices of the batch that region
`reg` routes to copy `c` (the partition of the batch for that copy),
task routing using the externally supplied task-index vector. -/
def Region.partitionIdx {P O : Type} (reg : Region P O) (tasks : List ℕ)
    (c : ℕ) : List ℕ :=
  (List.range tasks.length).filter
    (fun j => decide (reg.assignment (tasks.getD j 0) = c))

/-- Write `f j` at each row index `j` of `js` into the batch `acc`
(scattered writes of one partition's outputs back to their rows). -/
def scatterWrite {O : Type} (f : ℕ → O) (js : List ℕ) (acc : List O) :
    List O :=
  js.foldl (fun l jj => l.set jj (f jj)) acc

/-- Modelled from the spec: one region of the batched forward pass —
partition the current batch by the assignment for this region, route
each partition through its assigned copy's transform, and reassemble the
batch in original order (each partition's outputs are scattered back to
the rows they came from). -/
def Region.forward {P O : Type} [Inhabited P] [Inhabited O]
    (reg : Region P O) (obs : List O) (tasks : List ℕ) : List O :=
  (List.range reg.copies.length).foldl
    (fun acc c =>
      scatterWrite
        (fun j => reg.transform (reg.copies.getD c default) (obs.getD j default))
        (reg.partitionIdx tasks c) acc)
    (List.replicate tasks.length default)

/-- Modelled from the spec: `forward(observation_batch, task_indices)` —
the regions applied in sequence, each partitioning and reassembling the
batch. -/
def SplitNet.forward {P O : Type} [Inhabited P] [Inhabited O]
    (net : SplitNet P O) (obs : List O) (tasks : List ℕ) : List O :=
  net.regions.foldl (fun cur reg => reg.forward cur tasks) obs

/-- The per-sample reference path: one observation of task `t` pushed
through the per-region copy chain designated by the Task Assignment
Table for `t`. -/
def SplitNet.taskChain {P O : Type} [Inhabited P] (net : SplitNet P O)
    (t : ℕ) (x : O) : O :=
  net.regions.foldl
    (fun y reg => reg.transform (reg.copies.getD (reg.assignment t) default) y)
    x

/-! ### Part 3: gradient statistics / split-trigger engine, modelled from
the spec (section 4.3).  A flattened gradient is a list of rationals;
the engine for one (region, copy) keeps a `RunningMeanStdev` per
unordered task pair, fed the scalar difference-magnitude of the pair's
gradients at every training step. -/

/-- Modelled from the spec: the scalar magnitude of a flattened gradient
vector (sum of absolute entries). -/
def magnitude (v : List ℚ) : ℚ :=
  (v.map (fun x => |x|)).sum

/-- Modelled from the spec: `diff = magnitude(grad_task_a - grad_task_b)`. -/
def gradDiff (g h : List ℚ) : ℚ :=
  magnitude (List.zipWith (fun a b => a - b) g h)

/-- Modelled from the spec: one `record_gradients` step — for every
co-assigned task pair, feed that pair's Running Estimator the pair's
gradient difference-magnitude; other pairs' estimators are untouched. -/
def engineStep (grads : ℕ → List ℚ) (pairs : List (ℕ × ℕ))
    (st : ℕ × ℕ → RunningMeanStdev Unit) : ℕ × ℕ → RunningMeanStdev Unit :=
  fun pr =>
    if pr ∈ pairs then
      (st pr).update (fun _ => gradDiff (grads pr.1) (grads pr.2))
    else st pr

/-- The pair estimators after `n` training steps: created at time step 0
with value 0 and updated once per step. -/
def engineRun (gradSeq : ℕ → ℕ → List ℚ) (pairs : List (ℕ × ℕ)) :
    ℕ → (ℕ × ℕ → RunningMeanStdev Unit)
  | 0 => fun _ => RunningMeanStdev.init Unit
  | n + 1 => engineStep (gradSeq n) pairs (engineRun gradSeq pairs n)

/-- Modelled from the spec: the z-score of one pair,
`(current_diff - running_mean) / (running_stdev + epsilon)` with
`stdev = sqrt(max(var, 0))`. -/
noncomputable def zscore (st : RunningMeanStdev Unit) (d eps : ℚ) : ℝ :=
  ((d - st.mean () : ℚ) : ℝ) / (Real.sqrt (max ((st.var () : ℚ) : ℝ) 0) + (eps : ℝ))

/-- Modelled from the spec: `compute_split_statistic` — the divergence
score of task `t` at step `n` is the average of the z-scores of the
pairs containing `t` (current diffs taken from the step-`n` gradients,
estimators updated through step `n`). -/
noncomputable def taskScore (gradSeq : ℕ → ℕ → List ℚ)
    (pairs : List (ℕ × ℕ)) (eps : ℚ) (n t : ℕ) : ℝ :=
  ((pairs.filter (fun pr => decide (pr.1 = t ∨ pr.2 = t))).map (fun pr =>
    zscore (engineRun gradSeq pairs (n + 1) pr)
      (gradDiff (gradSeq n pr.1) (gradSeq n pr.2)) eps)).sum
  / ((pairs.filter (fun pr => decide (pr.1 = t ∨ pr.2 = t))).length : ℝ)

/-- The task divergence scores in ascending order. -/
noncomputable def sortedScores (T : ℕ) (scores : ℕ → ℝ) : List ℝ :=
  ((List.range T).map scores).mergeSort (fun a b => decide (a ≤ b))

/-- Adjacent gaps of the sorted task divergence scores. -/
noncomputable def scoreGaps (T : ℕ) (scores : ℕ → ℝ) : List ℝ :=
  List.zipWith (fun a b => b - a) (sortedScores T scores)
    (sortedScores T scores).tail

/-- The largest adjacent gap of the sorted scores. -/
noncomputable def maxGap (T : ℕ) (scores : ℕ → ℝ) : ℝ :=
  (scoreGaps T scores).foldr max 0

/-- The cut point between the two proposed groups: the midpoint of the
largest adjacent gap of the sorted scores. -/
noncomputable def gapCutoff (T : ℕ) (scores : ℕ → ℝ) : ℝ :=
  ((sortedScores T scores).getD
      ((scoreGaps T scores).indexOf (maxGap T scores)) 0
    + (sortedScores T scores).getD
      ((scoreGaps T scores).indexOf (maxGap T scores) + 1) 0) / 2

/-- Modelled from the spec: `decide_split` — below the step threshold
return no-split; otherwise check whether the task divergence scores
split into two groups separated by a gap strictly exceeding
`split_alpha` times the scores' scale (their max minus min), cutting at
the largest adjacent gap; ties and ambiguous partitions (gap not
strictly larger) favor no-split. -/
noncomputable def decide_split (alpha : ℚ) (T step threshold : ℕ)
    (scores : ℕ → ℝ) : Option (List ℕ × List ℕ) :=
  if step ≤ threshold then none
  else
    match ((List.range T).map scores).max?, ((List.range T).map scores).min? with
    | some hi, some lo =>
      if (alpha : ℝ) * (hi - lo) < maxGap T scores then
        some ((List.range T).filter (fun t => decide (scores t ≤ gapCutoff T scores)),
              (List.range T).filter (fun t => decide (gapCutoff T scores < scores t)))
      else none
    | _, _ => none

/-- A small concrete network over rational parameters and observations
(two regions, four tasks), used to evaluate the model on concrete
inputs. -/
def sampleNet : SplitNet ℚ ℚ :=
  SplitNet.init 4 [(1, fun p x => p * x), (2, fun p x => p + x)]

/-! ### Lemmas about the running estimators -/

theorem feedRM_cons {ι : Type} (s : RunningMean ι) (v : Tensor ι)
    (vs : List (Tensor ι)) : feedRM s (v :: vs) = feedRM (s.update v) vs :=
  rfl

theorem feedRMS_cons {ι : Type} (s : RunningMeanStdev ι) (v : Tensor ι)
    (vs : List (Tensor ι)) : feedRMS s (v :: vs) = feedRMS (s.update v) vs :=
  rfl

theorem feedRM_num_steps {ι : Type} (vs : List (Tensor ι)) :
    ∀ s : RunningMean ι, (feedRM s vs).num_steps = s.num_steps + vs.length := by
  induction vs with
  | nil => intro s; simp [feedRM]
  | cons v vs ih =>
    intro s
    rw [feedRM_cons, ih]
    simp [RunningMean.update]
    omega

/-- The mean of a `RunningMeanStdev` evolves exactly as the mean of a
`RunningMean` started from the same step count and mean. -/
theorem feedRMS_mean_eq {ι : Type} (vs : List (Tensor ι)) :
    ∀ s : RunningMeanStdev ι,
      (feedRMS s vs).mean = (feedRM ⟨s.num_steps, s.mean⟩ vs).mean := by
  induction vs with
  | nil => intro s; simp [feedRM, feedRMS]
  | cons v vs ih =>
    intro s
    rw [feedRMS_cons, feedRM_cons, ih]
    rfl

/-- Arithmetic-phase invariant: while the total step count stays at or
below `EMA_THRESHOLD`, the running mean times the step count equals the
weighted initial mean plus the sum of the fed values. -/
theorem feedRM_mean_arith {ι : Type} (i : ι) (vs : List (Tensor ι)) :
    ∀ s : RunningMean ι, s.num_steps + vs.length ≤ EMA_THRESHOLD →
      (feedRM s vs).mean i * ((s.num_steps : ℚ) + (vs.length : ℚ))
        = s.mean i * (s.num_steps : ℚ) + (vs.map (fun v => v i)).sum := by
  induction vs with
  | nil => intro s _; simp [feedRM]
  | cons v vs ih =>
    intro s h
    rw [feedRM_cons]
    have hn : (s.update v).num_steps = s.num_steps + 1 := rfl
    have h2 : (s.update v).num_steps + vs.length ≤ EMA_THRESHOLD := by
      rw [hn]; simp at h; omega
    have hupd : (s.update v).mean i
        = (s.mean i * (s.num_steps : ℚ) + v i) / ((s.num_steps : ℚ) + 1) := by
      have hle : s.num_steps + 1 ≤ EMA_THRESHOLD := by simp at h; omega
      simp only [RunningMean.update, single_update, if_pos hle]
      push_cast
      ring_nf
    have key := ih (s.update v) h2
    rw [hn, hupd] at key
    have hne : ((s.num_steps : ℚ) + 1) ≠ 0 := by positivity
    push_cast at key
    rw [div_mul_cancel₀ _ hne] at key
    simp only [List.map_cons, List.sum_cons]
    push_cast [List.length_cons]
    linear_combination key

/-- C1: for every Running Estimator (`RunningMean` or `RunningMeanStdev`)
and every non-empty sequence of values `v1..vn` with `n ≤ EMA_THRESHOLD`,
after feeding all `n` values via `update` the stored mean equals the
exact arithmetic mean `sum(v_i) / n` (elementwise, in exact
arithmetic). -/
theorem c1_arith_mean {ι : Type} (vs : List (Tensor ι)) (h0 : vs ≠ [])
    (h : vs.length ≤ EMA_THRESHOLD) (i : ι) :
    (feedRM (RunningMean.init ι) vs).mean i
        = (vs.map (fun v => v i)).sum / (vs.length : ℚ) ∧
    (feedRMS (RunningMeanStdev.init ι) vs).mean i
        = (vs.map (fun v => v i)).sum / (vs.length : ℚ) := by
  have hlen : (0 : ℚ) < (vs.length : ℚ) := by
    have : 0 < vs.length := List.length_pos.mpr h0
    exact_mod_cast this
  have harith := feedRM_mean_arith i vs (RunningMean.init ι) (by simpa [RunningMean.init] using h)
  simp only [RunningMean.init] at harith
  norm_num at harith
  have hrm : (feedRM (RunningMean.init ι) vs).mean i
      = (vs.map (fun v => v i)).sum / (vs.length : ℚ) := by
    rw [eq_div_iff (ne_of_gt hlen)]
    simpa [RunningMean.init] using harith
  refine ⟨hrm, ?_⟩
  have hmean := feedRMS_mean_eq vs (RunningMeanStdev.init ι)
  have : (⟨(RunningMeanStdev.init ι).num_steps, (RunningMeanStdev.init ι).mean⟩ : RunningMean ι)
      = RunningMean.init ι := rfl
  rw [hmean, this, hrm]

/-- C1 witness: feeding the two values 3 and 5 to each estimator yields
mean 4. -/
theorem c1_arith_mean_witness :
    (feedRM (RunningMean.init Unit) [fun _ => (3 : ℚ), fun _ => 5]).mean () = 4 ∧
    (feedRMS (RunningMeanStdev.init Unit) [fun _ => (3 : ℚ), fun _ => 5]).mean () = 4 := by
  have h := c1_arith_mean (ι := Unit) [fun _ => (3 : ℚ), fun _ => 5]
    (by simp) (by norm_num [EMA_THRESHOLD]) ()
  norm_num at h
  exact h

/-- C2: once the update count exceeds `EMA_THRESHOLD`, every subsequent
`update(v)` of either Running Estimator sets the mean to the
exponential moving average `EMA_ALPHA * mean_old + (1 - EMA_ALPHA) * v`
(elementwise). -/
theorem c2_ema_update {ι : Type} (m : RunningMean ι) (s : RunningMeanStdev ι)
    (v w : Tensor ι) (hm : EMA_THRESHOLD ≤ m.num_steps)
    (hs : EMA_THRESHOLD ≤ s.num_steps) (i : ι) :
    (m.update v).mean i = EMA_ALPHA * m.mean i + (1 - EMA_ALPHA) * v i ∧
    (s.update w).mean i = EMA_ALPHA * s.mean i + (1 - EMA_ALPHA) * w i := by
  constructor
  · simp only [RunningMean.update, single_update]
    rw [if_neg (by omega)]
    ring
  · simp only [RunningMeanStdev.update, single_update]
    rw [if_neg (by omega)]
    ring

/-- C2 witness: at step count 100 with mean 7, updating with value 1
gives `0.99 * 7 + 0.01 * 1 = 347/50`, for both estimators. -/
theorem c2_ema_update_witness :
    ((⟨100, fun _ => 7⟩ : RunningMean Unit).update (fun _ => 1)).mean () = 347 / 50 ∧
    ((⟨100, fun _ => 7, fun _ => 49, fun _ => 0⟩ : RunningMeanStdev Unit).update
        (fun _ => 1)).mean () = 347 / 50 := by
  have h := c2_ema_update (⟨100, fun _ => 7⟩ : RunningMean Unit)
    (⟨100, fun _ => 7, fun _ => 49, fun _ => 0⟩ : RunningMeanStdev Unit)
    (fun _ => 1) (fun _ => 1) (by norm_num [EMA_THRESHOLD])
    (by norm_num [EMA_THRESHOLD]) ()
  norm_num [EMA_ALPHA] at h
  exact h

/-- C9: a freshly constructed estimator after exactly one `update(v)`
has mean exactly `v`: the zero initialization does not bias the
estimate, since `(mean_old * 0 + v) / 1 = v`. -/
theorem c9_first_update {ι : Type} (v : Tensor ι) (i : ι) :
    ((RunningMean.init ι).update v).mean i = v i ∧
    ((RunningMeanStdev.init ι).update v).mean i = v i := by
  constructor
  · simp [RunningMean.init, RunningMean.update, single_update, EMA_THRESHOLD]
  · simp [RunningMeanStdev.init, RunningMeanStdev.update, single_update, EMA_THRESHOLD]

/-- Feeding a constant `c` to `single_update` when the current mean is
already `c` leaves the mean at `c`, in both phases. -/
theorem single_update_const {ι : Type} (m : Tensor ι) (c : ℚ) (i : ι)
    (n : ℕ) (hm : m i = c) (hn : 1 ≤ n) :
    single_update m (fun _ => c) n i = c := by
  simp only [single_update]
  by_cases hc : n ≤ EMA_THRESHOLD
  · rw [if_pos hc]
    have hne : (n : ℚ) ≠ 0 := Nat.cast_ne_zero.mpr (by omega)
    rw [hm]
    field_simp
    ring
  · rw [if_neg hc, hm]
    ring

/-- One constant update on a state whose mean is `c` and square mean is
`c ^ 2` keeps both and yields zero variance. -/
theorem update_const {ι : Type} (s : RunningMeanStdev ι) (c : ℚ) (i : ι)
    (hm : s.mean i = c) (hq : s.square_mean i = c ^ 2) :
    (s.update (fun _ => c)).mean i = c ∧
    (s.update (fun _ => c)).square_mean i = c ^ 2 ∧
    (s.update (fun _ => c)).var i = 0 := by
  have h1 : (s.update (fun _ => c)).mean i = c :=
    single_update_const s.mean c i (s.num_steps + 1) hm (by omega)
  have h2 : (s.update (fun _ => c)).square_mean i = c ^ 2 := by
    have := single_update_const s.square_mean (c ^ 2) i (s.num_steps + 1) hq (by omega)
    simpa using this
  refine ⟨h1, h2, ?_⟩
  show (s.update (fun _ => c)).square_mean i - (s.update (fun _ => c)).mean i ^ 2 = 0
  rw [h1, h2]
  ring

/-- Feeding any number of copies of the constant `c` from a state with
mean `c`, square mean `c ^ 2` and zero variance keeps all three. -/
theorem feedRMS_const {ι : Type} (c : ℚ) (i : ι) (k : ℕ) :
    ∀ s : RunningMeanStdev ι,
      s.mean i = c → s.square_mean i = c ^ 2 → s.var i = 0 →
      (feedRMS s (List.replicate k (fun _ => c))).mean i = c ∧
      (feedRMS s (List.replicate k (fun _ => c))).square_mean i = c ^ 2 ∧
      (feedRMS s (List.replicate k (fun _ => c))).var i = 0 := by
  induction k with
  | zero => intro s hm hq hv; simpa [feedRMS] using ⟨hm, hq, hv⟩
  | succ k ih =>
    intro s hm hq hv
    rw [List.replicate_succ, feedRMS_cons]
    obtain ⟨u1, u2, u3⟩ := update_const s c i hm hq
    exact ih _ u1 u2 u3

/-- C10: feeding the constant `c` to a fresh `RunningMeanStdev` for any
`n ≥ 1` consecutive updates yields mean `c`, variance `0` and stdev `0`
in exact arithmetic, covering both the arithmetic-mean phase and the EMA
phase. -/
theorem c10_constant_fixpoint {ι : Type} (c : ℚ) (n : ℕ) (hn : 1 ≤ n)
    (i : ι) :
    (feedRMS (RunningMeanStdev.init ι) (List.replicate n (fun _ => c))).mean i = c ∧
    (feedRMS (RunningMeanStdev.init ι) (List.replicate n (fun _ => c))).var i = 0 ∧
    (feedRMS (RunningMeanStdev.init ι) (List.replicate n (fun _ => c))).stdev i = some 0 := by
  obtain ⟨k, rfl⟩ : ∃ k, n = k + 1 := ⟨n - 1, by omega⟩
  rw [List.replicate_succ, feedRMS_cons]
  have h1 : ((RunningMeanStdev.init ι).update (fun _ => c)).mean i = c := by
    simp [RunningMeanStdev.init, RunningMeanStdev.update, single_update, EMA_THRESHOLD]
  have h2 : ((RunningMeanStdev.init ι).update (fun _ => c)).square_mean i = c ^ 2 := by
    simp [RunningMeanStdev.init, RunningMeanStdev.update, single_update, EMA_THRESHOLD]
  have h3 : ((RunningMeanStdev.init ι).update (fun _ => c)).var i = 0 := by
    show ((RunningMeanStdev.init ι).update (fun _ => c)).square_mean i
        - ((RunningMeanStdev.init ι).update (fun _ => c)).mean i ^ 2 = 0
    rw [h1, h2]
    ring
  obtain ⟨f1, f2, f3⟩ := feedRMS_const c i k _ h1 h2 h3
  refine ⟨f1, f3, ?_⟩
  rw [RunningMeanStdev.stdev, f3]
  norm_num

/-- C10 witness: three updates with the constant 2 give mean 2, variance
0 and stdev 0. -/
theorem c10_constant_fixpoint_witness :
    (feedRMS (RunningMeanStdev.init Unit) (List.replicate 3 (fun _ => (2 : ℚ)))).mean () = 2 ∧
    (feedRMS (RunningMeanStdev.init Unit) (List.replicate 3 (fun _ => (2 : ℚ)))).var () = 0 ∧
    (feedRMS (RunningMeanStdev.init Unit) (List.replicate 3 (fun _ => (2 : ℚ)))).stdev () = some 0 :=
  c10_constant_fixpoint 2 3 (by norm_num) ()

/-- One update preserves the Cauchy–Schwarz-style invariant
`mean ^ 2 ≤ square_mean`, in both the arithmetic and the EMA phase. -/
theorem update_sq_ge {ι : Type} (s : RunningMeanStdev ι) (v : Tensor ι)
    (i : ι) (h : s.mean i ^ 2 ≤ s.square_mean i) :
    (s.update v).mean i ^ 2 ≤ (s.update v).square_mean i := by
  have hmean : (s.update v).mean i = single_update s.mean v (s.num_steps + 1) i := rfl
  have hsq : (s.update v).square_mean i
      = single_update s.square_mean (fun j => v j ^ 2) (s.num_steps + 1) i := rfl
  rw [hmean, hsq]
  simp only [single_update]
  by_cases hc : s.num_steps + 1 ≤ EMA_THRESHOLD
  · rw [if_pos hc, if_pos hc]
    have hn1 : (1 : ℚ) ≤ ((s.num_steps + 1 : ℕ) : ℚ) := by exact_mod_cast Nat.one_le_iff_ne_zero.mpr (by omega)
    have hn0 : (0 : ℚ) < ((s.num_steps + 1 : ℕ) : ℚ) := by linarith
    rw [div_pow, div_le_div_iff₀ (by positivity) (by positivity)]
    have e1 : 0 ≤ ((s.num_steps + 1 : ℕ) : ℚ) * (((s.num_steps + 1 : ℕ) : ℚ) - 1)
        * (s.mean i - v i) ^ 2 :=
      mul_nonneg (mul_nonneg hn0.le (by linarith)) (sq_nonneg _)
    have e2 : 0 ≤ (s.square_mean i - s.mean i ^ 2)
        * ((((s.num_steps + 1 : ℕ) : ℚ) - 1) * ((s.num_steps + 1 : ℕ) : ℚ) ^ 2) :=
      mul_nonneg (by linarith) (mul_nonneg (by linarith) (by positivity))
    nlinarith [e1, e2]
  · rw [if_neg hc, if_neg hc]
    simp only [EMA_ALPHA]
    nlinarith [sq_nonneg (s.mean i - v i), h]

/-- The invariant `mean ^ 2 ≤ square_mean` holds along any update
sequence. -/
theorem feedRMS_sq_ge {ι : Type} (vs : List (Tensor ι)) :
    ∀ (s : RunningMeanStdev ι) (i : ι), s.mean i ^ 2 ≤ s.square_mean i →
      (feedRMS s vs).mean i ^ 2 ≤ (feedRMS s vs).square_mean i := by
  induction vs with
  | nil => intro s i h; simpa [feedRMS] using h
  | cons v vs ih =>
    intro s i h
    rw [feedRMS_cons]
    exact ih _ i (update_sq_ge s v i h)

/-- Along any update sequence the stored `var` equals
`square_mean - mean ^ 2`. -/
theorem feedRMS_var_eq {ι : Type} (vs : List (Tensor ι)) :
    ∀ s : RunningMeanStdev ι,
      (∀ j, s.var j = s.square_mean j - s.mean j ^ 2) →
      ∀ i, (feedRMS s vs).var i
        = (feedRMS s vs).square_mean i - (feedRMS s vs).mean i ^ 2 := by
  induction vs with
  | nil => intro s h i; simpa [feedRMS] using h i
  | cons v vs ih =>
    intro s _ i
    rw [feedRMS_cons]
    exact ih _ (fun j => rfl) i

/-- C3 (exact-arithmetic account): along every update sequence from a
fresh `RunningMeanStdev` the variance estimate stays nonnegative, so the
stored stdev equals `sqrt(max(square_mean - mean^2, 0))` and is never
NaN.  Note this holds although the source applies no clamping: in exact
arithmetic the clamp is a no-op, and only floating-point rounding can
drive `var` negative (see the claim's analysis). -/
theorem c3_exact_var_nonneg {ι : Type} (vs : List (Tensor ι)) (i : ι) :
    0 ≤ (feedRMS (RunningMeanStdev.init ι) vs).var i ∧
    (feedRMS (RunningMeanStdev.init ι) vs).stdev i
      = some (Real.sqrt (max (((feedRMS (RunningMeanStdev.init ι) vs).var i : ℚ) : ℝ) 0)) := by
  have hvar := feedRMS_var_eq vs (RunningMeanStdev.init ι)
    (fun j => by simp [RunningMeanStdev.init]) i
  have hge := feedRMS_sq_ge vs (RunningMeanStdev.init ι) i
    (by simp [RunningMeanStdev.init])
  have h0 : 0 ≤ (feedRMS (RunningMeanStdev.init ι) vs).var i := by
    rw [hvar]; linarith
  refine ⟨h0, ?_⟩
  rw [RunningMeanStdev.stdev, if_neg (not_lt.mpr h0)]
  rw [max_eq_left (by exact_mod_cast h0)]

/-! ### Lemmas about the splitting network -/

theorem mem_assignedTasks {P O : Type} (reg : Region P O) (T c t : ℕ) :
    t ∈ reg.assignedTasks T c ↔ t < T ∧ reg.assignment t = c := by
  simp [Region.assignedTasks, List.mem_filter, List.mem_range]

theorem SplitNet.split_ok {P O : Type} [Inhabited P] (net : SplitNet P O)
    (r c : ℕ) (g1 g2 : List ℕ) (h : net.goodSplit r c g1 g2) :
    net.split r c g1 g2
      = .ok { net with regions := net.regions.set r ((net.regionAt r).splitCopy c g2) } := by
  rw [SplitNet.split, if_pos h]

theorem SplitNet.split_err {P O : Type} [Inhabited P] (net : SplitNet P O)
    (r c : ℕ) (g1 g2 : List ℕ) (h : ¬ net.goodSplit r c g1 g2) :
    net.split r c g1 g2 = .error "invalid split arguments" := by
  rw [SplitNet.split, if_neg h]

theorem SplitNet.trySplit_eq {P O : Type} [Inhabited P] (net : SplitNet P O)
    (r c : ℕ) (g1 g2 : List ℕ) (h : net.goodSplit r c g1 g2) :
    net.trySplit r c g1 g2
      = { net with regions := net.regions.set r ((net.regionAt r).splitCopy c g2) } := by
  unfold SplitNet.trySplit
  rw [net.split_ok r c g1 g2 h]

theorem SplitNet.trySplit_err {P O : Type} [Inhabited P] (net : SplitNet P O)
    (r c : ℕ) (g1 g2 : List ℕ) (h : ¬ net.goodSplit r c g1 g2) :
    net.trySplit r c g1 g2 = net := by
  unfold SplitNet.trySplit
  rw [net.split_err r c g1 g2 h]

theorem regionAt_set_self {P O : Type} (net : SplitNet P O) (r : ℕ)
    (reg : Region P O) (hr : r < net.regions.length) :
    SplitNet.regionAt { net with regions := net.regions.set r reg } r = reg := by
  unfold SplitNet.regionAt
  simp [List.getD_eq_getElem?_getD, List.getElem?_set_self hr]

theorem regionAt_set_ne {P O : Type} (net : SplitNet P O) (r r2 : ℕ)
    (reg : Region P O) (h : r ≠ r2) :
    SplitNet.regionAt { net with regions := net.regions.set r reg } r2
      = net.regionAt r2 := by
  unfold SplitNet.regionAt
  simp [List.getD_eq_getElem?_getD, List.getElem?_set_ne h]

theorem regionAt_mem {P O : Type} (net : SplitNet P O) (r : ℕ)
    (hr : r < net.regions.length) : net.regionAt r ∈ net.regions := by
  unfold SplitNet.regionAt
  rw [List.getD_eq_getElem net.regions default hr]
  exact List.getElem_mem hr

/-- C4: a valid `split(region, copy, group1, group2)` succeeds and
allocates exactly one new copy at the region (the old copies are kept
unchanged, the new copy sits at the next dense index) whose parameters
equal the pre-split copy's parameters; every task in `group2` is
reassigned to the new copy, every task in `group1` stays on the original
copy, and all other regions are untouched. -/
theorem c4_split_effect {P O : Type} [Inhabited P] (net : SplitNet P O)
    (r c : ℕ) (g1 g2 : List ℕ) (h : net.goodSplit r c g1 g2) :
    net.split r c g1 g2 = .ok (net.trySplit r c g1 g2) ∧
    ((net.trySplit r c g1 g2).regionAt r).copies.length
      = (net.regionAt r).copies.length + 1 ∧
    ((net.trySplit r c g1 g2).regionAt r).copies[(net.regionAt r).copies.length]?
      = (net.regionAt r).copies[c]? ∧
    ((net.trySplit r c g1 g2).regionAt r).copies.take (net.regionAt r).copies.length
      = (net.regionAt r).copies ∧
    (∀ t ∈ g2, ((net.trySplit r c g1 g2).regionAt r).assignment t
      = (net.regionAt r).copies.length) ∧
    (∀ t ∈ g1, ((net.trySplit r c g1 g2).regionAt r).assignment t = c) ∧
    (∀ r2, r2 ≠ r → (net.trySplit r c g1 g2).regionAt r2 = net.regionAt r2) := by
  obtain ⟨hr, hc, hg1, hg2, hnd, hsub1, hsub2⟩ := h
  have hts := net.trySplit_eq r c g1 g2 ⟨hr, hc, hg1, hg2, hnd, hsub1, hsub2⟩
  have hok := net.split_ok r c g1 g2 ⟨hr, hc, hg1, hg2, hnd, hsub1, hsub2⟩
  have hra : (net.trySplit r c g1 g2).regionAt r = (net.regionAt r).splitCopy c g2 := by
    rw [hts]
    exact regionAt_set_self net r _ hr
  refine ⟨by rw [hok, hts], ?_, ?_, ?_, ?_, ?_, ?_⟩
  · rw [hra]
    simp [Region.splitCopy]
  · rw [hra]
    show ((net.regionAt r).copies ++ [(net.regionAt r).copies.getD c default])[(net.regionAt r).copies.length]?
      = (net.regionAt r).copies[c]?
    rw [List.getElem?_concat_length, List.getD_eq_getElem _ default hc,
      List.getElem?_eq_getElem hc]
  · rw [hra]
    exact List.take_left _ _
  · intro t ht
    rw [hra]
    show (if t ∈ g2 then (net.regionAt r).copies.length else (net.regionAt r).assignment t)
      = (net.regionAt r).copies.length
    rw [if_pos ht]
  · intro t ht
    have htg2 : t ∉ g2 := List.disjoint_of_nodup_append hnd ht
    have hmem := hsub1 t (List.mem_append_left g2 ht)
    rw [mem_assignedTasks] at hmem
    rw [hra]
    show (if t ∈ g2 then (net.regionAt r).copies.length else (net.regionAt r).assignment t) = c
    rw [if_neg htg2]
    exact hmem.2
  · intro r2 hr2
    rw [hts]
    exact regionAt_set_ne net r r2 _ (fun hx => hr2 hx.symm)

/-- C4 witness: splitting region 1 of the sample network, keeping tasks
0 and 2 on copy 0 and sending tasks 1 and 3 to the new copy 1. -/
theorem c4_split_effect_witness :
    sampleNet.split 1 0 [0, 2] [1, 3] = .ok (sampleNet.trySplit 1 0 [0, 2] [1, 3]) ∧
    ((sampleNet.trySplit 1 0 [0, 2] [1, 3]).regionAt 1).copies.length
      = (sampleNet.regionAt 1).copies.length + 1 ∧
    ((sampleNet.trySplit 1 0 [0, 2] [1, 3]).regionAt 1).copies[(sampleNet.regionAt 1).copies.length]?
      = (sampleNet.regionAt 1).copies[0]? ∧
    ((sampleNet.trySplit 1 0 [0, 2] [1, 3]).regionAt 1).copies.take (sampleNet.regionAt 1).copies.length
      = (sampleNet.regionAt 1).copies ∧
    (∀ t ∈ [1, 3], ((sampleNet.trySplit 1 0 [0, 2] [1, 3]).regionAt 1).assignment t
      = (sampleNet.regionAt 1).copies.length) ∧
    (∀ t ∈ [0, 2], ((sampleNet.trySplit 1 0 [0, 2] [1, 3]).regionAt 1).assignment t = 0) ∧
    (∀ r2, r2 ≠ 1 → (sampleNet.trySplit 1 0 [0, 2] [1, 3]).regionAt r2 = sampleNet.regionAt r2) :=
  c4_split_effect sampleNet 1 0 [0, 2] [1, 3] (by decide)

/-- C6: `split` with invalid arguments (groups not a clean partition of
the copy's current task set, an empty group, or an unknown copy or
region index) fails with the invalid-argument error, and the network
state after the call is exactly the network state before it. -/
theorem c6_invalid_split {P O : Type} [Inhabited P] (net : SplitNet P O)
    (r c : ℕ) (g1 g2 : List ℕ) (h : ¬ net.goodSplit r c g1 g2) :
    net.split r c g1 g2 = .error "invalid split arguments" ∧
    net.trySplit r c g1 g2 = net :=
  ⟨net.split_err r c g1 g2 h, net.trySplit_err r c g1 g2 h⟩

/-- C6 witness: the spec's two error scenarios on the sample network —
overlapping groups `[0,1]`, `[1,2]` — fail and leave the state
unchanged. -/
theorem c6_invalid_split_witness :
    sampleNet.split 0 0 [0, 1] [1, 2] = .error "invalid split arguments" ∧
    sampleNet.trySplit 0 0 [0, 1] [1, 2] = sampleNet :=
  c6_invalid_split sampleNet 0 0 [0, 1] [1, 2] (by decide)

theorem totalAssignment_trySplit {P O : Type} [Inhabited P]
    (net : SplitNet P O) (r c : ℕ) (g1 g2 : List ℕ)
    (h : net.totalAssignment) : (net.trySplit r c g1 g2).totalAssignment := by
  by_cases hg : net.goodSplit r c g1 g2
  · rw [net.trySplit_eq r c g1 g2 hg]
    intro reg hreg t ht
    rcases List.mem_or_eq_of_mem_set hreg with hmem | rfl
    · exact h reg hmem t ht
    · obtain ⟨hr, hc, -, -, -, -, -⟩ := hg
      show (if t ∈ g2 then (net.regionAt r).copies.length else (net.regionAt r).assignment t)
        < ((net.regionAt r).copies ++ [(net.regionAt r).copies.getD c default]).length

      by_cases hm : t ∈ g2
      · rw [if_pos hm]
        simp
      · rw [if_neg hm]
        have := h (net.regionAt r) (regionAt_mem net r hr) t ht
        simp
        omega
  · rw [net.trySplit_err r c g1 g2 hg]
    exact h

theorem wellFormed_trySplit {P O : Type} [Inhabited P] (net : SplitNet P O)
    (r c : ℕ) (g1 g2 : List ℕ) (h : net.wellFormed) :
    (net.trySplit r c g1 g2).wellFormed := by
  obtain ⟨htot, hcell⟩ := h
  by_cases hg : net.goodSplit r c g1 g2
  · refine ⟨totalAssignment_trySplit net r c g1 g2 htot, ?_⟩
    obtain ⟨hr, hc, hg1, hg2, hnd, hsub1, hsub2⟩ := hg
    rw [net.trySplit_eq r c g1 g2 ⟨hr, hc, hg1, hg2, hnd, hsub1, hsub2⟩]
    intro reg hreg c2 hc2
    rcases List.mem_or_eq_of_mem_set hreg with hmem | rfl
    · exact hcell reg hmem c2 hc2
    · simp only [Region.splitCopy, List.length_append, List.length_cons,
        List.length_nil] at hc2
      by_cases hck : c2 = (net.regionAt r).copies.length
      · obtain ⟨t, ht⟩ := List.exists_mem_of_ne_nil g2 hg2
        have hmem2 := hsub1 t (List.mem_append_right g1 ht)
        rw [mem_assignedTasks] at hmem2
        refine ⟨t, hmem2.1, ?_⟩
        show (if t ∈ g2 then (net.regionAt r).copies.length else (net.regionAt r).assignment t) = c2
        rw [if_pos ht, hck]
      · have hc2' : c2 < (net.regionAt r).copies.length := by omega
        by_cases hcc : c2 = c
        · obtain ⟨t, ht⟩ := List.exists_mem_of_ne_nil g1 hg1
          have hmem1 := hsub1 t (List.mem_append_left g2 ht)
          rw [mem_assignedTasks] at hmem1
          have htg2 : t ∉ g2 := List.disjoint_of_nodup_append hnd ht
          refine ⟨t, hmem1.1, ?_⟩
          show (if t ∈ g2 then (net.regionAt r).copies.length else (net.regionAt r).assignment t) = c2
          rw [if_neg htg2, hmem1.2, hcc]
        · obtain ⟨t, htT, hta⟩ := hcell (net.regionAt r) (regionAt_mem net r hr) c2 hc2'
          have htg2 : t ∉ g2 := by
            intro hcon
            have hx := hsub1 t (List.mem_append_right g1 hcon)
            rw [mem_assignedTasks] at hx
            exact hcc (by rw [← hta, hx.2])
          refine ⟨t, htT, ?_⟩
          show (if t ∈ g2 then (net.regionAt r).copies.length else (net.regionAt r).assignment t) = c2
          rw [if_neg htg2, hta]
  · rw [net.trySplit_err r c g1 g2 hg]
    exact ⟨htot, hcell⟩

theorem totalAssignment_init {P O : Type} (T : ℕ)
    (layers : List (P × (P → O → O))) :
    (SplitNet.init T layers : SplitNet P O).totalAssignment := by
  intro reg hreg t ht
  simp only [SplitNet.init, List.mem_map] at hreg
  obtain ⟨l, -, rfl⟩ := hreg
  simp

theorem wellFormed_init {P O : Type} (T : ℕ) (hT : 1 ≤ T)
    (layers : List (P × (P → O → O))) :
    (SplitNet.init T layers : SplitNet P O).wellFormed := by
  refine ⟨totalAssignment_init T layers, ?_⟩
  intro reg hreg c hc
  simp only [SplitNet.init, List.mem_map] at hreg
  obtain ⟨l, -, rfl⟩ := hreg
  simp only [List.length_cons, List.length_nil] at hc
  refine ⟨0, hT, ?_⟩
  show (0 : ℕ) = c
  omega

theorem applySplits_cons {P O : Type} [Inhabited P] (net : SplitNet P O)
    (op : ℕ × ℕ × List ℕ × List ℕ) (ops : List (ℕ × ℕ × List ℕ × List ℕ)) :
    net.applySplits (op :: ops)
      = (net.trySplit op.1 op.2.1 op.2.2.1 op.2.2.2).applySplits ops :=
  rfl

theorem totalAssignment_applySplits {P O : Type} [Inhabited P]
    (ops : List (ℕ × ℕ × List ℕ × List ℕ)) :
    ∀ net : SplitNet P O, net.totalAssignment →
      (net.applySplits ops).totalAssignment := by
  induction ops with
  | nil => intro net h; exact h
  | cons op ops ih =>
    intro net h
    rw [applySplits_cons]
    exact ih _ (totalAssignment_trySplit net op.1 op.2.1 op.2.2.1 op.2.2.2 h)

theorem wellFormed_applySplits {P O : Type} [Inhabited P]
    (ops : List (ℕ × ℕ × List ℕ × List ℕ)) :
    ∀ net : SplitNet P O, net.wellFormed → (net.applySplits ops).wellFormed := by
  induction ops with
  | nil => intro net h; exact h
  | cons op ops ih =>
    intro net h
    rw [applySplits_cons]
    exact ih _ (wellFormed_trySplit net op.1 op.2.1 op.2.2.1 op.2.2.2 h)

/-- C5: after any sequence of `split` calls from construction (invalid
calls leaving the state unchanged), in every region the task→copy
mapping is a total function on the full task-index set into the dense
copy range, and every copy serves at least one task — the copies' task
sets partition the task-index set. -/
theorem c5_partition_invariant {P O : Type} [Inhabited P] (T : ℕ)
    (hT : 1 ≤ T) (layers : List (P × (P → O → O)))
    (ops : List (ℕ × ℕ × List ℕ × List ℕ)) :
    ((SplitNet.init T layers : SplitNet P O).applySplits ops).wellFormed :=
  wellFormed_applySplits ops _ (wellFormed_init T hT layers)

/-- C5 witness: the invariant after two splits of the sample network. -/
theorem c5_partition_invariant_witness :
    (sampleNet.applySplits [(0, 0, [0, 1], [2, 3]), (0, 0, [0], [1])]).wellFormed :=
  c5_partition_invariant 4 (by norm_num) [(1, fun p x => p * x), (2, fun p x => p + x)]
    [(0, 0, [0, 1], [2, 3]), (0, 0, [0], [1])]

/-! ### The forward pass: partitioned batches against per-sample paths -/

theorem getD_set {O : Type} [Inhabited O] (l : List O) (i j : ℕ) (x : O) :
    (l.set i x).getD j default
      = if j = i ∧ j < l.length then x else l.getD j default := by
  by_cases hij : j = i
  · subst hij
    by_cases hl : j < l.length
    · rw [if_pos ⟨rfl, hl⟩, List.getD_eq_getElem?_getD, List.getElem?_set_self hl]
      rfl
    · rw [if_neg (fun hx => hl hx.2), List.set_eq_of_length_le (by omega)]
  · rw [if_neg (fun hx => hij hx.1), List.getD_eq_getElem?_getD,
      List.getElem?_set_ne (fun hx => hij hx.symm), List.getD_eq_getElem?_getD]

theorem scatterWrite_length {O : Type} (f : ℕ → O) (js : List ℕ) :
    ∀ acc : List O, (scatterWrite f js acc).length = acc.length := by
  induction js with
  | nil => intro acc; rfl
  | cons jj js ih =>
    intro acc
    show (scatterWrite f js (acc.set jj (f jj))).length = acc.length
    rw [ih, List.length_set]

theorem scatterWrite_getD {O : Type} [Inhabited O] (f : ℕ → O)
    (js : List ℕ) : ∀ (acc : List O) (j : ℕ),
    (scatterWrite f js acc).getD j default
      = if j ∈ js ∧ j < acc.length then f j else acc.getD j default := by
  induction js with
  | nil => intro acc j; simp [scatterWrite]
  | cons jj js ih =>
    intro acc j
    show (scatterWrite f js (acc.set jj (f jj))).getD j default = _
    rw [ih, List.length_set, getD_set]
    by_cases hmem : j ∈ js
    · by_cases hlen : j < acc.length
      · rw [if_pos ⟨hmem, hlen⟩, if_pos ⟨List.mem_cons_of_mem jj hmem, hlen⟩]
      · rw [if_neg (fun hx => hlen hx.2), if_neg (fun hx => hlen hx.2),
          if_neg (fun hx => hlen hx.2)]
    · rw [if_neg (fun hx => hmem hx.1)]
      by_cases hjj : j = jj
      · subst hjj
        by_cases hlen : j < acc.length
        · rw [if_pos ⟨rfl, hlen⟩, if_pos ⟨List.mem_cons_self j js, hlen⟩]
        · rw [if_neg (fun hx => hlen hx.2), if_neg (fun hx => hlen hx.2)]
      · rw [if_neg (fun hx => hjj hx.1),
          if_neg (fun hx => (List.mem_cons.mp hx.1).elim hjj hmem)]

theorem mem_partitionIdx {P O : Type} (reg : Region P O) (tasks : List ℕ)
    (c j : ℕ) :
    j ∈ reg.partitionIdx tasks c
      ↔ j < tasks.length ∧ reg.assignment (tasks.getD j 0) = c := by
  simp [Region.partitionIdx, List.mem_filter, List.mem_range]

/-- The value at row `j` after scattering the outputs of the copies in
`cs` over the batch: the designated copy's output once that copy has
been processed, the original placeholder otherwise. -/
theorem scatter_fold_getD {P O : Type} [Inhabited P] [Inhabited O]
    (reg : Region P O) (obs : List O) (tasks : List ℕ) (cs : List ℕ) :
    ∀ (acc : List O), acc.length = tasks.length → ∀ j, j < tasks.length →
      (cs.foldl
        (fun acc c =>
          scatterWrite
            (fun jj => reg.transform (reg.copies.getD c default) (obs.getD jj default))
            (reg.partitionIdx tasks c) acc)
        acc).getD j default
      = if reg.assignment (tasks.getD j 0) ∈ cs
        then reg.transform
          (reg.copies.getD (reg.assignment (tasks.getD j 0)) default)
          (obs.getD j default)
        else acc.getD j default := by
  induction cs with
  | nil => intro acc _ j _; simp
  | cons c cs ih =>
    intro acc hlen j hj
    rw [List.foldl_cons]
    have hlen2 : (scatterWrite
        (fun jj => reg.transform (reg.copies.getD c default) (obs.getD jj default))
        (reg.partitionIdx tasks c) acc).length = tasks.length := by
      rw [scatterWrite_length]; exact hlen
    rw [ih _ hlen2 j hj, scatterWrite_getD]
    by_cases hin : reg.assignment (tasks.getD j 0) ∈ cs
    · rw [if_pos hin, if_pos (List.mem_cons_of_mem c hin)]
    · rw [if_neg hin]
      by_cases hac : reg.assignment (tasks.getD j 0) = c
      · rw [if_pos ⟨(mem_partitionIdx reg tasks c j).mpr ⟨hj, hac⟩, by omega⟩,
          if_pos (List.mem_cons.mpr (Or.inl hac)), hac]
      · rw [if_neg (fun hx => hac ((mem_partitionIdx reg tasks c j).mp hx.1).2),
          if_neg (fun hx => (List.mem_cons.mp hx).elim hac hin)]

theorem scatter_fold_length {P O : Type} [Inhabited P] [Inhabited O]
    (reg : Region P O) (obs : List O) (tasks : List ℕ) (cs : List ℕ) :
    ∀ acc : List O,
      (cs.foldl
        (fun acc c =>
          scatterWrite
            (fun jj => reg.transform (reg.copies.getD c default) (obs.getD jj default))
            (reg.partitionIdx tasks c) acc)
        acc).length = acc.length := by
  induction cs with
  | nil => intro acc; rfl
  | cons c cs ih =>
    intro acc
    rw [List.foldl_cons, ih, scatterWrite_length]

theorem Region.forward_length {P O : Type} [Inhabited P] [Inhabited O]
    (reg : Region P O) (obs : List O) (tasks : List ℕ) :
    (reg.forward obs tasks).length = tasks.length := by
  unfold Region.forward
  rw [scatter_fold_length]
  exact List.length_replicate tasks.length default

theorem Region.forward_getD {P O : Type} [Inhabited P] [Inhabited O]
    (reg : Region P O) (obs : List O) (tasks : List ℕ) (j : ℕ)
    (hj : j < tasks.length)
    (ha : reg.assignment (tasks.getD j 0) < reg.copies.length) :
    (reg.forward obs tasks).getD j default
      = reg.transform
        (reg.copies.getD (reg.assignment (tasks.getD j 0)) default)
        (obs.getD j default) := by
  unfold Region.forward
  rw [scatter_fold_getD reg obs tasks (List.range reg.copies.length)
    (List.replicate tasks.length default) (by simp) j hj]
  rw [if_pos (List.mem_range.mpr ha)]

theorem num_tasks_trySplit {P O : Type} [Inhabited P] (net : SplitNet P O)
    (r c : ℕ) (g1 g2 : List ℕ) :
    (net.trySplit r c g1 g2).num_tasks = net.num_tasks := by
  by_cases hg : net.goodSplit r c g1 g2
  · rw [net.trySplit_eq r c g1 g2 hg]
  · rw [net.trySplit_err r c g1 g2 hg]

theorem num_tasks_applySplits {P O : Type} [Inhabited P]
    (ops : List (ℕ × ℕ × List ℕ × List ℕ)) :
    ∀ net : SplitNet P O, (net.applySplits ops).num_tasks = net.num_tasks := by
  induction ops with
  | nil => intro net; rfl
  | cons op ops ih =>
    intro net
    rw [applySplits_cons, ih, num_tasks_trySplit]

/-- Row `j` of the batch folded through a list of regions equals the
per-sample chain of row `j` alone, whenever every region routes every
task index below `T` to an existing copy. -/
theorem forward_chain_aux {P O : Type} [Inhabited P] [Inhabited O] (T : ℕ)
    (regs : List (Region P O))
    (hwf : ∀ reg ∈ regs, ∀ t < T, reg.assignment t < reg.copies.length) :
    ∀ (obs : List O) (tasks : List ℕ), obs.length = tasks.length →
      (∀ t ∈ tasks, t < T) → ∀ j, j < tasks.length →
      (regs.foldl (fun cur reg => reg.forward cur tasks) obs).getD j default
        = regs.foldl
            (fun y reg =>
              reg.transform (reg.copies.getD (reg.assignment (tasks.getD j 0)) default) y)
            (obs.getD j default) := by
  induction regs with
  | nil => intro obs tasks _ _ j _; rfl
  | cons reg regs ih =>
    intro obs tasks hlen htasks j hj
    rw [List.foldl_cons, List.foldl_cons]
    have htj : tasks.getD j 0 < T := by
      apply htasks
      rw [List.getD_eq_getElem tasks 0 hj]
      exact List.getElem_mem hj
    have ha := hwf reg (List.mem_cons_self reg regs) _ htj
    rw [ih (fun reg2 h2 => hwf reg2 (List.mem_cons_of_mem reg h2))
      (reg.forward obs tasks) tasks (Region.forward_length reg obs tasks) htasks j hj]
    rw [Region.forward_getD reg obs tasks j hj ha]

/-- C7: for every network reachable by any history of `split` calls,
every observation batch and every valid task-index vector, row `j` of
the batched `forward` output equals running row `j` alone through the
per-region copy chain designated by the Task Assignment Table for its
task — so the output of a row depends only on that row's observation and
task, never on batch order or batch composition. -/
theorem c7_forward_equiv {P O : Type} [Inhabited P] [Inhabited O] (T : ℕ)
    (layers : List (P × (P → O → O))) (ops : List (ℕ × ℕ × List ℕ × List ℕ))
    (obs : List O) (tasks : List ℕ) (hlen : obs.length = tasks.length)
    (htasks : ∀ t ∈ tasks, t < T) (j : ℕ) (hj : j < tasks.length) :
    (((SplitNet.init T layers : SplitNet P O).applySplits ops).forward obs tasks).getD j default
      = ((SplitNet.init T layers : SplitNet P O).applySplits ops).taskChain
          (tasks.getD j 0) (obs.getD j default) := by
  have htot := totalAssignment_applySplits ops
    (SplitNet.init T layers : SplitNet P O) (totalAssignment_init T layers)
  have hnt := num_tasks_applySplits ops (SplitNet.init T layers : SplitNet P O)
  have hwf : ∀ reg ∈ ((SplitNet.init T layers : SplitNet P O).applySplits ops).regions,
      ∀ t < T, reg.assignment t < reg.copies.length := by
    intro reg hreg t ht
    exact htot reg hreg t (by rw [hnt]; exact ht)
  exact forward_chain_aux T _ hwf obs tasks hlen htasks j hj

/-- C7 witness: a batch of two rows through the once-split sample
network. -/
theorem c7_forward_equiv_witness :
    ((sampleNet.applySplits [(1, 0, [0, 2], [1, 3])]).forward
        [(3 : ℚ), 4] [1, 2]).getD 0 default
      = (sampleNet.applySplits [(1, 0, [0, 2], [1, 3])]).taskChain
          ([1, 2].getD 0 0) ([(3 : ℚ), 4].getD 0 default) :=
  c7_forward_equiv 4 [(1, fun p x => p * x), (2, fun p x => p + x)]
    [(1, 0, [0, 2], [1, 3])] [(3 : ℚ), 4] [1, 2] (by decide)
    (by decide) 0 (by decide)

/-! ### The split-trigger engine under indistinguishable gradients -/

theorem gradDiff_self (g : List ℚ) : gradDiff g g = 0 := by
  induction g with
  | nil => rfl
  | cons x g ih =>
    unfold gradDiff magnitude at ih ⊢
    simp only [List.zipWith_cons_cons, List.map_cons, List.sum_cons,
      sub_self, abs_zero, zero_add]
    exact ih

/-- When every task's gradient is the same constant at every step, every
pair estimator stays at zero mean, zero square mean and zero variance
forever. -/
theorem engineRun_const {gradSeq : ℕ → ℕ → List ℚ} {g0 : List ℚ}
    (hconst : ∀ s t, gradSeq s t = g0) (pairs : List (ℕ × ℕ)) :
    ∀ n (pr : ℕ × ℕ),
      (engineRun gradSeq pairs n pr).mean () = 0 ∧
      (engineRun gradSeq pairs n pr).square_mean () = 0 ∧
      (engineRun gradSeq pairs n pr).var () = 0 := by
  intro n
  induction n with
  | zero => intro pr; exact ⟨rfl, rfl, rfl⟩
  | succ n ih =>
    intro pr
    have hrw : engineRun gradSeq pairs (n + 1)
        = engineStep (gradSeq n) pairs (engineRun gradSeq pairs n) := rfl
    rw [hrw]
    unfold engineStep
    by_cases hm : pr ∈ pairs
    · rw [if_pos hm]
      have hd : gradDiff (gradSeq n pr.1) (gradSeq n pr.2) = 0 := by
        rw [hconst, hconst]
        exact gradDiff_self g0
      simp only [hd]
      obtain ⟨h1, h2, _⟩ := ih pr
      obtain ⟨u1, u2, u3⟩ := update_const (engineRun gradSeq pairs n pr) 0 ()
        h1 (by rw [h2]; norm_num)
      exact ⟨u1, by rw [u2]; norm_num, u3⟩
    · rw [if_neg hm]
      exact ih pr

/-- With identical constant gradients all task divergence scores are
zero: every z-score has a zero numerator. -/
theorem taskScore_const {gradSeq : ℕ → ℕ → List ℚ} {g0 : List ℚ}
    (hconst : ∀ s t, gradSeq s t = g0) (pairs : List (ℕ × ℕ)) (eps : ℚ)
    (n t : ℕ) : taskScore gradSeq pairs eps n t = 0 := by
  unfold taskScore
  rw [List.sum_eq_zero, zero_div]
  intro x hx
  rw [List.mem_map] at hx
  obtain ⟨pr, -, rfl⟩ := hx
  unfold zscore
  rw [hconst, hconst, gradDiff_self, (engineRun_const hconst pairs (n + 1) pr).1]
  norm_num

theorem foldr_max_replicate_zero (m : ℕ) :
    (List.replicate m (0 : ℝ)).foldr max 0 = 0 := by
  induction m with
  | zero => rfl
  | succ m ih => rw [List.replicate_succ, List.foldr_cons, ih, max_self]

theorem sortedScores_const (T : ℕ) (scores : ℕ → ℝ)
    (hs : ∀ t, scores t = 0) :
    sortedScores T scores = List.replicate T 0 := by
  have hmem : ∀ b ∈ sortedScores T scores, b = 0 := by
    intro b hb
    rw [sortedScores, List.mem_mergeSort, List.mem_map] at hb
    obtain ⟨t, -, rfl⟩ := hb
    exact hs t
  have hlen : (sortedScores T scores).length = T := by
    rw [sortedScores, List.length_mergeSort, List.length_map, List.length_range]
  rw [List.eq_replicate_of_mem hmem, hlen]

theorem maxGap_const (T : ℕ) (scores : ℕ → ℝ) (hs : ∀ t, scores t = 0) :
    maxGap T scores = 0 := by
  rw [maxGap, scoreGaps, sortedScores_const T scores hs]
  cases T with
  | zero => rfl
  | succ k =>
    rw [List.replicate_succ, List.tail_cons, ← List.replicate_succ,
      List.zipWith_replicate]
    simp only [sub_zero]
    exact foldr_max_replicate_zero _

/-- C8: in a training run where all tasks' per-step gradients are the
same constant at every step, `decide_split` returns no-split at every
step, for the pair set of any region and copy and any `split_alpha`,
epsilon and step threshold: all divergence scores coincide, so no gap
strictly exceeds the `split_alpha`-scaled score range and the
conservative default (no structural mutation) always wins. -/
theorem c8_no_split (gradSeq : ℕ → ℕ → List ℚ) (g0 : List ℚ)
    (hconst : ∀ s t, gradSeq s t = g0) (pairs : List (ℕ × ℕ))
    (eps alpha : ℚ) (T threshold n : ℕ) :
    decide_split alpha T (n + 1) threshold
      (taskScore gradSeq pairs eps n) = none := by
  have hs : ∀ t, taskScore gradSeq pairs eps n t = 0 :=
    taskScore_const hconst pairs eps n
  unfold decide_split
  by_cases hstep : n + 1 ≤ threshold
  · rw [if_pos hstep]
  · rw [if_neg hstep]
    cases hmax : ((List.range T).map (taskScore gradSeq pairs eps n)).max? with
    | none =>
      cases hmin : ((List.range T).map (taskScore gradSeq pairs eps n)).min? <;> rfl
    | some hi =>
      cases hmin : ((List.range T).map (taskScore gradSeq pairs eps n)).min? with
      | none => rfl
      | some lo =>
        have hhi : hi = 0 := by
          have hmem := List.max?_mem (fun a b => max_choice a b) hmax
          rw [List.mem_map] at hmem
          obtain ⟨t, -, hteq⟩ := hmem
          rw [← hteq]
          exact hs t
        have hlo : lo = 0 := by
          have hmem := List.min?_mem (fun a b => min_choice a b) hmin
          rw [List.mem_map] at hmem
          obtain ⟨t, -, hteq⟩ := hmem
          rw [← hteq]
          exact hs t
        rw [hhi, hlo, maxGap_const T _ hs]
        simp

/-- C8 witness: three tasks with the constant gradient `[1, -2]` at
every step, past the step threshold. -/
theorem c8_no_split_witness :
    decide_split (1 / 20) 3 31 30
      (taskScore (fun _ _ => [1, -2]) [(0, 1), (0, 2), (1, 2)] (1 / 100) 30)
      = none :=
  c8_no_split (fun _ _ => [1, -2]) [1, -2] (fun _ _ => rfl)
    [(0, 1), (0, 2), (1, 2)] (1 / 100) (1 / 20) 3 30 30

end MetaWorld
